import Mathlib

/-!
Verification development for the change-reconciliation engine of
`rapid-modeling-tools` (`graph_analysis/graph_creation.py` and its test
suite `test_graph_analysis/test_utils.py`).

The embedding below mirrors the Python source.  Python dictionaries are
modelled as association lists iterated in insertion order; Python sets
whose iteration order the claims never depend on are modelled as lists
with membership tests.  `uuid.uuid4()` values are modelled as a separate
constructor of an identifier type fed from an explicit fresh counter.

The modules `graph_analysis/utils.py` (providing `match`,
`match_changes`, `remove_duplicates`) and `graph_analysis/graph_objects.py`
(providing `Vertex`, `DiEdge` and their `*_to_uml` serialisers) are not
part of the repository snapshot; definitions for them are modelled from
the specification (each such definition says so in its doc comment).
-/

/-- Identifier attached to a vertex: either a string identifier already
known to the translator (`uml_id` values read from an ID sheet) or a
freshly generated `uuid.uuid4()` object, modelled by a counter value.
`isinstance(x.id, type(uuid.uuid4()))` in the source corresponds to the
`uuid` constructor. -/
inductive VId where
  | str (s : String)
  | uuid (n : Nat)
deriving DecidableEq, Repr

/-- Modelled from the spec (§3, graph_objects.py absent from src/):
a graph node with a `name`, an identifier `id`, and a flag recording
whether the vertex carries a rename association (`Vertex.has_rename`). -/
structure Vertex where
  name : String
  vid : VId
  has_rename : Bool
deriving DecidableEq, Repr

/-- Modelled from the spec (§3, graph_objects.py absent from src/):
a directed edge between two vertices carrying the edge-type label
`edge_attribute`. -/
structure DiEdge where
  source : Vertex
  target : Vertex
  edge_attribute : String
deriving DecidableEq, Repr

/-- `DiEdge.named_edge_triple` from the source: the identity used for
cross-snapshot comparison. -/
def DiEdge.named_edge_triple (e : DiEdge) : String × String × String :=
  (e.source.name, e.target.name, e.edge_attribute)

/-- Modelled from the spec (§4.4, utils.py absent from src/): the
closeness score `match(current, clone)`.  A label-length mismatch scores
`-1` (shorter candidate) or `-2` (longer candidate); with equal label
lengths, exactly one differing endpoint (by name) scores `1`, otherwise
the score is `0`. -/
def match_closeness (current clone : DiEdge) : Int :=
  if clone.edge_attribute.length ≠ current.edge_attribute.length then
    if clone.edge_attribute.length < current.edge_attribute.length then -1 else -2
  else
    if (current.source.name = clone.source.name ∧ current.target.name ≠ clone.target.name)
        ∨ (current.source.name ≠ clone.source.name ∧ current.target.name = clone.target.name) then
      1
    else
      0

/-- `graph_creation.py` lines 152--163: the named-triple set differences.
The Python code forms the set of `named_edge_triple`s of each edge set and
lists the triples of one graph absent from the other; casting each triple
back through `edge_dict` recovers the edge.  Keeping list order stands in
for Python's unordered set iteration; the claims only use membership. -/
def unmatched_edges (edge_set_one edge_set_two : List DiEdge) : List DiEdge :=
  edge_set_one.filter
    (fun e => ! (edge_set_two.map DiEdge.named_edge_triple).contains e.named_edge_triple)

/-- `graph_creation.py` lines 172--182: bucket a list of unmatched edges
into per-type lists keyed by `edge_attribute`, keys in order of first
appearance (Python dict insertion order). -/
def unmatch_map (edges : List DiEdge) : List (String × List DiEdge) :=
  let keys := (edges.map DiEdge.edge_attribute).dedup
  keys.map (fun k => (k, edges.filter (fun e => e.edge_attribute = k)))

/-- Look a key up in an association list (Python `d[k]`, first binding). -/
def alookup (k : String) : List (String × List DiEdge) → List DiEdge
  | [] => []
  | (k', v) :: rest => if k = k' then v else alookup k rest

/-- Result of the preference construction of
`graph_creation.py` lines 184--208: the static `Added` and `Deleted`
buckets and the per-original-edge candidate lists (dict insertion order). -/
structure PrefResult where
  added : List DiEdge
  deleted : List DiEdge
  prefs : List (DiEdge × List DiEdge)
deriving DecidableEq, Repr

/-- `graph_creation.py` lines 184--208: build `eval_one_unmatch_pref`.
Edge types of the changed side absent from the original side's bucket map
feed the `Added` bucket; original edges whose type is absent from the
changed side's bucket map go to `Deleted`; every other original edge is
keyed to a copy of the changed side's bucket for its type. -/
def build_pref (eval_one_unmatched eval_two_unmatched : List DiEdge) : PrefResult :=
  let eval_one_unmatch_map := unmatch_map eval_one_unmatched
  let eval_two_unmatch_map := unmatch_map eval_two_unmatched
  let ance_keys_not_in_base :=
    (eval_two_unmatch_map.map Prod.fst).filter
      (fun k => ! (eval_one_unmatch_map.map Prod.fst).contains k)
  let added := ance_keys_not_in_base.flatMap (fun k => alookup k eval_two_unmatch_map)
  let deleted := eval_one_unmatched.filter
    (fun e => ! (eval_two_unmatch_map.map Prod.fst).contains e.edge_attribute)
  let prefs := (eval_one_unmatched.filter
      (fun e => (eval_two_unmatch_map.map Prod.fst).contains e.edge_attribute)).map
    (fun e => (e, alookup e.edge_attribute eval_two_unmatch_map))
  ⟨added, deleted, prefs⟩

/-- The edge differ followed by the preference builder
(`graph_creation.py` lines 152--208). -/
def get_pattern_graph_diff (edge_set_one edge_set_two : List DiEdge) : PrefResult :=
  build_pref (unmatched_edges edge_set_one edge_set_two)
    (unmatched_edges edge_set_two edge_set_one)

/-- Modelled from the spec (§4.4, utils.py absent from src/): the best
closeness score a proposer attains over its available candidates.  `-3`
is below every reachable score, so on a non-empty pool the fold returns
the attained maximum. -/
def best_score (p : DiEdge) (avail : List DiEdge) : Int :=
  (avail.map (match_closeness p)).foldl max (-3)

/-- Modelled from the spec (§4.4): the candidates tied for the proposer's
best score. -/
def tied_best (p : DiEdge) (avail : List DiEdge) : List DiEdge :=
  avail.filter (fun c => match_closeness p c = best_score p avail)

/-- Modelled from the spec (§4.4 step 3): the unique strict-best
candidate, when the tie set is a singleton. -/
def unique_best (p : DiEdge) (avail : List DiEdge) : Option DiEdge :=
  match tied_best p avail with
  | [c] => some c
  | _ => none

/-- Modelled from the spec (§4.4 steps 2--4): one pass over the pending
proposers in order.  A proposer scores the candidates not yet consumed
(`taken`); a unique strict best is accepted at once (consuming the
candidate for every later proposer), a tie or an empty pool defers the
proposer.  Returns the acceptances of the pass, the grown `taken` list
and the proposers still pending. -/
def match_pass (taken : List DiEdge) :
    List (DiEdge × List DiEdge) →
      List (DiEdge × DiEdge) × List DiEdge × List (DiEdge × List DiEdge)
  | [] => ([], taken, [])
  | (p, cands) :: rest =>
    match unique_best p (cands.filter (fun c => ! taken.contains c)) with
    | some c =>
      let r := match_pass (c :: taken) rest
      ((p, c) :: r.1, r.2.1, r.2.2)
    | none =>
      let r := match_pass taken rest
      (r.1, r.2.1, (p, cands) :: r.2.2)

/-- Modelled from the spec (§4.4 step 5): iterate passes until a pass
makes no acceptance (candidate pools stop shrinking).  The fuel bounds
the number of productive passes; each productive pass resolves at least
one proposer, so `pending.length` passes always converge. -/
def match_loop (fuel : Nat) (taken : List DiEdge)
    (pending : List (DiEdge × List DiEdge)) :
    List (DiEdge × DiEdge) × List DiEdge × List (DiEdge × List DiEdge) :=
  match fuel with
  | 0 => ([], taken, pending)
  | fuel + 1 =>
    let r := match_pass taken pending
    if r.1.isEmpty then ([], taken, pending)
    else
      let r2 := match_loop fuel r.2.1 r.2.2
      (r.1 ++ r2.1, r2.2.1, r2.2.2)

/-- Modelled from the spec (§4.4 steps 6--7 and §7): after convergence a
proposer with an empty surviving pool is unmatched and routed to
`Deleted`; a proposer with a persistent tie is emitted into
`unstable_pairs` with the full surviving tied candidate set. -/
def classify_pending (taken : List DiEdge) :
    List (DiEdge × List DiEdge) →
      List (DiEdge × List DiEdge) × List DiEdge
  | [] => ([], [])
  | (p, cands) :: rest =>
    let r := classify_pending taken rest
    if (cands.filter (fun c => ! taken.contains c)).isEmpty then (r.1, p :: r.2)
    else
      ((p, tied_best p (cands.filter (fun c => ! taken.contains c))) :: r.1, r.2)

/-- Output of the matcher: the confident matches (each original edge
paired with its single resolved candidate), the pass-through `Added`
bucket, the `Deleted` bucket (input bucket plus unmatched proposers) and
the unstable pairs. -/
structure MatchResult where
  pairings : List (DiEdge × DiEdge)
  added : List DiEdge
  deleted : List DiEdge
  unstable : List (DiEdge × List DiEdge)
deriving DecidableEq, Repr

/-- Modelled from the spec (§4.4, utils.py absent from src/):
`match_changes`.  The static `Added`/`Deleted` buckets pass through; the
per-original-edge candidate lists are resolved by the iterative
mutual-acceptance procedure, persistent ties land in `unstable_pairs`
and emptied pools in `Deleted`. -/
def match_changes (pr : PrefResult) : MatchResult :=
  let r := match_loop (pr.prefs.length + 1) [] pr.prefs
  let cl := classify_pending r.2.1 r.2.2
  ⟨r.1, pr.added, pr.deleted ++ cl.2, cl.1⟩


/-- `true` iff the identifier is a `uuid.uuid4()` object
(`isinstance(x.id, type(uuid.uuid4()))` in the source). -/
def VId.isUuid : VId → Bool
  | .uuid _ => true
  | .str _ => false

/-- `true` iff the identifier is a string (`isinstance(v, str)`). -/
def VId.isStr : VId → Bool
  | .uuid _ => false
  | .str _ => true

/-- A MagicDraw instruction.  The serialisers live in the absent
graph_objects.py, so instructions are kept abstract: one constructor per
instruction kind named by the spec (§6), carrying the node identity or
the edge triple together with the operation name. -/
inductive Instr where
  | createNode (name : String) (vid : VId)
  | decorateNode (name : String) (vid : VId)
  | renameNode (name : String) (vid : VId)
  | edgeOp (op : String) (triple : String × String × String)
deriving DecidableEq, Repr

/-- Modelled from the spec (§4.5, graph_objects.py absent from src/):
`Vertex.create_node_to_uml` returns the node-create instructions, their
decoration instructions and any accompanying edge instructions (none in
this model) as three lists, matching the call sites in
graph_creation.py. -/
def create_node_to_uml (v : Vertex) : List Instr × List Instr × List Instr :=
  ([.createNode v.name v.vid], [.decorateNode v.name v.vid], [])

/-- Modelled from the spec (§4.5, graph_objects.py absent from src/):
`Vertex.change_node_to_uml`, the node-rename instruction. -/
def change_node_to_uml (v : Vertex) : Instr :=
  .renameNode v.name v.vid

/-- Modelled from the spec (§4.5, graph_objects.py absent from src/):
`DiEdge.edge_to_uml(op)`, an edge instruction carrying the operation
name and the named edge triple. -/
def edge_to_uml (op : String) (e : DiEdge) : Instr :=
  .edgeOp op e.named_edge_triple

/-- Modelled from the spec (§4.5, utils.py absent from src/):
`remove_duplicates` collapses instructions identical by full content to
their first occurrence. -/
def remove_duplicates_from (seen : List Instr) : List Instr → List Instr
  | [] => []
  | x :: xs =>
    if seen.contains x then remove_duplicates_from seen xs
    else x :: remove_duplicates_from (x :: seen) xs

/-- Modelled from the spec (§4.5, utils.py absent from src/): collapse
identical instructions to a single occurrence. -/
def remove_duplicates (l : List Instr) : List Instr :=
  remove_duplicates_from [] l

/-- The accumulator threaded through `graph_difference_to_json`
(`graph_creation.py` lines 362--372): the seen-identifier set and the
six instruction lists. -/
structure JState where
  seen_ids : List VId
  edge_del : List Instr
  edge_add : List Instr
  node_renames : List Instr
  create_node : List Instr
  node_dec : List Instr
deriving Repr

/-- A key of the `change_dict` argument of `graph_difference_to_json`:
the static string keys `Added` and `Deleted`, or an original `DiEdge`. -/
inductive CKey where
  | added
  | deleted
  | orig (e : DiEdge)
deriving DecidableEq, Repr

/-- `graph_creation.py` lines 379--399: process one edge of the `Added`
bucket.  Each endpoint not yet seen is created (node-create, decoration
and accompanying edge instructions) and marked seen; then the edge gets
a `replace` edge instruction. -/
def process_added_edge (st : JState) (edge : DiEdge) : JState :=
  let st1 :=
    if st.seen_ids.contains edge.source.vid then st
    else
      let r := create_node_to_uml edge.source
      { st with seen_ids := edge.source.vid :: st.seen_ids,
                create_node := st.create_node ++ r.1,
                node_dec := st.node_dec ++ r.2.1,
                edge_add := st.edge_add ++ r.2.2 }
  let st2 :=
    if st1.seen_ids.contains edge.target.vid then st1
    else
      let r := create_node_to_uml edge.target
      { st1 with seen_ids := edge.target.vid :: st1.seen_ids,
                 create_node := st1.create_node ++ r.1,
                 node_dec := st1.node_dec ++ r.2.1,
                 edge_add := st1.edge_add ++ r.2.2 }
  { st2 with edge_add := st2.edge_add ++ [edge_to_uml "replace" edge] }

/-- `graph_creation.py` lines 404--438: process one confident-match
entry (`value[0]` is the matched change edge).  The endpoint filters are
computed up front from the seen-identifier set; the Python `for ... else`
blocks append a `replace` edge instruction after each non-empty filter
loop, and the final branch appends it when both filters are empty. -/
def process_orig_entry (st : JState) (v0 : DiEdge) : JState :=
  let eligible := [v0.source, v0.target].filter (fun x => ! st.seen_ids.contains x.vid)
  let hasRename := eligible.filter (fun x => x.has_rename)
  let isNew := eligible.filter (fun x => x.vid.isUuid)
  let st1 :=
    if hasRename.isEmpty then st
    else
      let stR := hasRename.foldl
        (fun s n =>
          { s with seen_ids := n.vid :: s.seen_ids,
                   node_renames := s.node_renames ++ [change_node_to_uml n] }) st
      { stR with edge_add := stR.edge_add ++ [edge_to_uml "replace" v0] }
  let st2 :=
    if isNew.isEmpty then st1
    else
      let stN := isNew.foldl
        (fun s n =>
          let r := create_node_to_uml n
          { s with seen_ids := n.vid :: s.seen_ids,
                   create_node := s.create_node ++ r.1,
                   node_dec := s.node_dec ++ r.2.1,
                   edge_add := s.edge_add ++ r.2.2 }) st1
      { stN with edge_add := stN.edge_add ++ [edge_to_uml "replace" v0] }
  if hasRename.isEmpty && isNew.isEmpty then
    { st2 with edge_add := st2.edge_add ++ [edge_to_uml "replace" v0] }
  else st2

/-- `graph_creation.py` lines 377--438: dispatch one `change_dict`
entry.  An `orig` key with an empty value list is left untouched here
(Python would raise `IndexError` on `value[0]`; matcher output never
produces one). -/
def process_entry (st : JState) : CKey × List DiEdge → JState
  | (.added, value) => value.foldl process_added_edge st
  | (.deleted, value) =>
    value.foldl
      (fun s e => { s with edge_del := s.edge_del ++ [edge_to_uml "delete" e] }) st
  | (.orig _, []) => st
  | (.orig _, v0 :: _) => process_orig_entry st v0

/-- `graph_creation.py` lines 361--461: `graph_difference_to_json`.
The seen-identifier set starts from the string-valued entries of the
translator's `uml_id`; the `change_dict` entries are processed in
insertion order; the returned `change_list` is assembled from the
deduplicated node-create, decoration, edge-delete and node-rename lists.
The accumulated `edge_add` list is never appended: the extend at line
446 is commented out in the source. -/
def graph_difference_to_json (uml_id : List (String × VId))
    (change_dict : List (CKey × List DiEdge)) : List Instr :=
  let seen0 := (uml_id.map Prod.snd).filter VId.isStr
  let st := change_dict.foldl process_entry ⟨seen0, [], [], [], [], []⟩
  let head :=
    if st.create_node.isEmpty then []
    else remove_duplicates st.create_node ++ remove_duplicates st.node_dec
  head ++ remove_duplicates st.edge_del ++ remove_duplicates st.node_renames

/-- The part of the `MDTranslator` state that `get_uml_id` touches: the
`uml_id` dictionary (association list in insertion order) and the fresh
`uuid.uuid4()` supply, modelled by a counter. -/
structure MDTranslator where
  uml_id : List (String × VId)
  fresh : Nat
deriving DecidableEq, Repr

/-- Python dictionary lookup on `uml_id` (`name in self.uml_id.keys()`
followed by `self.uml_id[name]`). -/
def lookup_uml (name : String) : List (String × VId) → Option VId
  | [] => none
  | (k, v) :: rest => if k = name then some v else lookup_uml name rest

/-- `graph_creation.py` lines 919--942: `MDTranslator.get_uml_id`.  If
the name is a key of `uml_id` its stored value is returned; otherwise a
fresh `uuid.uuid4()` is stored under the name and returned. -/
def get_uml_id (tr : MDTranslator) (name : String) : VId × MDTranslator :=
  match lookup_uml name tr.uml_id with
  | some v => (v, tr)
  | none =>
    (VId.uuid tr.fresh,
     ⟨tr.uml_id ++ [(name, VId.uuid tr.fresh)], tr.fresh + 1⟩)

/-- Discriminator separating the four instruction kinds; the four
accumulator lists of `graph_difference_to_json` each hold a single
kind. -/
def Instr.kind : Instr → Nat
  | .createNode _ _ => 0
  | .decorateNode _ _ => 1
  | .renameNode _ _ => 2
  | .edgeOp _ _ => 3

/-- The accumulator lists hold instructions of their own kind only
(node-creates, decorations, renames, edge-deletes respectively). -/
def JState.wf (st : JState) : Prop :=
  (∀ i ∈ st.create_node, i.kind = 0) ∧ (∀ i ∈ st.node_dec, i.kind = 1) ∧
    (∀ i ∈ st.node_renames, i.kind = 2) ∧ (∀ i ∈ st.edge_del, i.kind = 3)

/-- Shorthand for an edge between two string-identified vertices used by
the concrete test scenarios. -/
def mkE (s t a : String) : DiEdge :=
  ⟨⟨s, .str s, false⟩, ⟨t, .str t, false⟩, a⟩

/-- Original unmatched edges of the two-proposer tie scenario of
`test_match_changes`. -/
def tieBase : List DiEdge := [mkE "s1" "t1" "type", mkE "s2" "t2" "type"]

/-- Changed unmatched edges of the two-proposer tie scenario of
`test_match_changes`. -/
def tieAnce : List DiEdge :=
  [mkE "as1" "t1" "type", mkE "s2" "at2" "type", mkE "s1" "at1" "type"]

lemma foldl_max_init_le (l : List Int) (a : Int) : a ≤ l.foldl max a := by
  induction l generalizing a with
  | nil => simp
  | cons y ys ih => exact le_trans (le_max_left a y) (ih (max a y))

lemma mem_le_foldl_max (l : List Int) (a x : Int) (hx : x ∈ l) : x ≤ l.foldl max a := by
  induction l generalizing a with
  | nil => cases hx
  | cons y ys ih =>
    rcases List.mem_cons.mp hx with h | h
    · subst h
      exact le_trans (le_max_right a x) (foldl_max_init_le ys (max a x))
    · exact ih (max a y) h

/-- C4: the closeness score is `-1` for a shorter candidate label, `-2`
for a longer one, `1` when the labels have equal length and exactly one
endpoint differs by name, `0` when both endpoints differ; the matcher
ranks candidates by the numeric order of these scores, so
`1 > 0 > -1 > -2` from best to worst. -/
theorem C4_match_scoring (current clone : DiEdge) :
    (clone.edge_attribute.length < current.edge_attribute.length →
      match_closeness current clone = -1) ∧
    (current.edge_attribute.length < clone.edge_attribute.length →
      match_closeness current clone = -2) ∧
    (clone.edge_attribute.length = current.edge_attribute.length →
      ((current.source.name = clone.source.name ∧ current.target.name ≠ clone.target.name) ∨
        (current.source.name ≠ clone.source.name ∧ current.target.name = clone.target.name)) →
      match_closeness current clone = 1) ∧
    (clone.edge_attribute.length = current.edge_attribute.length →
      current.source.name ≠ clone.source.name ∧ current.target.name ≠ clone.target.name →
      match_closeness current clone = 0) ∧
    (∀ p c cs, c ∈ cs → match_closeness p c ≤ best_score p cs) := by
  unfold match_closeness
  refine ⟨fun h => ?_, fun h => ?_, fun hl h => ?_, fun hl h => ?_, fun p c cs hc => ?_⟩
  · rw [if_pos (by omega), if_pos h]
  · rw [if_pos (by omega), if_neg (by omega)]
  · rw [if_neg (by omega), if_pos h]
  · rw [if_neg (by omega), if_neg ?_]
    rintro (⟨hs, _⟩ | ⟨_, ht⟩)
    · exact h.1 hs
    · exact h.2 ht
  · exact mem_le_foldl_max _ _ _ (List.mem_map_of_mem (match_closeness p) hc)

/-- Witness for C4 at concrete edges. -/
theorem C4_match_scoring_witness :
    match_closeness (mkE "s" "t" "owner") (mkE "x" "y" "type") = -1 ∧
    match_closeness (mkE "s" "t" "owner") (mkE "x" "y" "memberEnd") = -2 ∧
    match_closeness (mkE "s" "t" "owner") (mkE "s" "u" "owner") = 1 ∧
    match_closeness (mkE "s" "t" "owner") (mkE "x" "y" "owner") = 0 ∧
    match_closeness (mkE "s" "t" "owner") (mkE "s" "u" "owner") ≤
      best_score (mkE "s" "t" "owner") [mkE "s" "u" "owner"] :=
  ⟨(C4_match_scoring (mkE "s" "t" "owner") (mkE "x" "y" "type")).1 (by decide),
   (C4_match_scoring (mkE "s" "t" "owner") (mkE "x" "y" "memberEnd")).2.1 (by decide),
   (C4_match_scoring (mkE "s" "t" "owner") (mkE "s" "u" "owner")).2.2.1
     (by decide) (by decide),
   (C4_match_scoring (mkE "s" "t" "owner") (mkE "x" "y" "owner")).2.2.2.1
     (by decide) (by decide),
   (C4_match_scoring (mkE "s" "t" "owner") (mkE "x" "y" "owner")).2.2.2.2
     (mkE "s" "t" "owner") (mkE "s" "u" "owner") [mkE "s" "u" "owner"] (by decide)⟩

lemma lookup_uml_append_self (name : String) (l : List (String × VId)) (v : VId)
    (h : lookup_uml name l = none) : lookup_uml name (l ++ [(name, v)]) = some v := by
  induction l with
  | nil => simp [lookup_uml]
  | cons kv rest ih =>
    obtain ⟨k, w⟩ := kv
    by_cases hk : k = name
    · simp [lookup_uml, hk] at h
    · simp [lookup_uml, hk] at h ⊢
      exact ih h

lemma lookup_uml_append_other (other name : String) (l : List (String × VId)) (v : VId)
    (h : other ≠ name) : lookup_uml other (l ++ [(name, v)]) = lookup_uml other l := by
  induction l with
  | nil =>
    simp only [List.nil_append, lookup_uml]
    rw [if_neg (fun hc => h hc.symm)]
  | cons kv rest ih =>
    obtain ⟨k, w⟩ := kv
    by_cases hk : k = other
    · simp [lookup_uml, hk]
    · simp only [List.cons_append, lookup_uml, if_neg hk]
      exact ih

/-- C10: `get_uml_id` returns the stored identifier unchanged when the
name is already a key, otherwise stores and returns a fresh uuid; a
second call with the same name returns the same identifier without
changing the state, and identifiers stored for other names are never
altered. -/
theorem C10_get_uml_id_idempotent (tr : MDTranslator) (name : String) :
    (∀ v, lookup_uml name tr.uml_id = some v → get_uml_id tr name = (v, tr)) ∧
    (lookup_uml name tr.uml_id = none →
      (get_uml_id tr name).1 = VId.uuid tr.fresh ∧
      lookup_uml name (get_uml_id tr name).2.uml_id = some (VId.uuid tr.fresh)) ∧
    get_uml_id (get_uml_id tr name).2 name =
      ((get_uml_id tr name).1, (get_uml_id tr name).2) ∧
    (∀ other, other ≠ name →
      lookup_uml other (get_uml_id tr name).2.uml_id = lookup_uml other tr.uml_id) := by
  refine ⟨fun w hw => ?_, fun hn => ⟨?_, ?_⟩, ?_, fun other ho => ?_⟩
  · simp [get_uml_id, hw]
  · simp [get_uml_id, hn]
  · simp only [get_uml_id, hn]
    exact lookup_uml_append_self name tr.uml_id (VId.uuid tr.fresh) hn
  · cases h : lookup_uml name tr.uml_id with
    | some v => simp [get_uml_id, h]
    | none =>
      have hself := lookup_uml_append_self name tr.uml_id (VId.uuid tr.fresh) h
      simp only [get_uml_id, h]
      simp [hself]
  · cases h : lookup_uml name tr.uml_id with
    | some v => simp [get_uml_id, h]
    | none =>
      simp only [get_uml_id, h]
      exact lookup_uml_append_other other name tr.uml_id (VId.uuid tr.fresh) ho

/-- Witness for C10 at a concrete translator state. -/
theorem C10_get_uml_id_idempotent_witness :
    get_uml_id ⟨[("a", VId.str "ida")], 0⟩ "a" =
      (VId.str "ida", ⟨[("a", VId.str "ida")], 0⟩) ∧
    (get_uml_id ⟨[("a", VId.str "ida")], 0⟩ "b").1 = VId.uuid 0 ∧
    lookup_uml "c" (get_uml_id ⟨[("a", VId.str "ida")], 0⟩ "b").2.uml_id =
      lookup_uml "c" [("a", VId.str "ida")] :=
  ⟨(C10_get_uml_id_idempotent _ "a").1 _ (by decide),
   ((C10_get_uml_id_idempotent _ "b").2.1 (by decide)).1,
   (C10_get_uml_id_idempotent _ "b").2.2.2 "c" (by decide)⟩

/-- C7: processing the `Deleted` bucket appends exactly one edge-delete
instruction per edge and leaves every other accumulator — node-creates,
decorations, renames, edge instructions and the seen-identifier set —
untouched, so endpoints are never deleted, created, decorated or
renamed. -/
theorem C7_deleted_bucket_delete_only (st : JState) (value : List DiEdge) :
    process_entry st (CKey.deleted, value) =
      { st with edge_del := st.edge_del ++ value.map (edge_to_uml "delete") } := by
  induction value generalizing st with
  | nil => simp [process_entry]
  | cons e es ih =>
    have h : process_entry st (CKey.deleted, e :: es) =
        process_entry
          { st with edge_del := st.edge_del ++ [edge_to_uml "delete" e] }
          (CKey.deleted, es) := rfl
    rw [h, ih]
    simp

/-- C8: a confident match whose change edge has endpoints that are
neither renamed nor newly created (after removing already-seen
endpoints) falls through to a single plain edge-replace instruction;
nothing else changes and nothing is raised. -/
theorem C8_default_edge_replace (st : JState) (k v0 : DiEdge) (rest : List DiEdge)
    (h1 : (([v0.source, v0.target].filter
        (fun x => ! st.seen_ids.contains x.vid)).filter (fun x => x.has_rename)) = [])
    (h2 : (([v0.source, v0.target].filter
        (fun x => ! st.seen_ids.contains x.vid)).filter (fun x => x.vid.isUuid)) = []) :
    process_entry st (CKey.orig k, v0 :: rest) =
      { st with edge_add := st.edge_add ++ [edge_to_uml "replace" v0] } := by
  show process_orig_entry st v0 = _
  unfold process_orig_entry
  simp only [h1, h2, List.isEmpty_nil]
  simp

/-- Witness for C8: both endpoints of the matched change edge are
already-seen string-identified nodes, so the default case fires. -/
theorem C8_default_edge_replace_witness :
    process_entry
      ⟨[VId.str "idu", VId.str "idv"], [], [], [], [], []⟩
      (CKey.orig (mkE "a" "b" "owner"),
        [⟨⟨"u", VId.str "idu", false⟩, ⟨"v", VId.str "idv", false⟩, "owner"⟩]) =
      ⟨[VId.str "idu", VId.str "idv"], [],
        [edge_to_uml "replace"
          ⟨⟨"u", VId.str "idu", false⟩, ⟨"v", VId.str "idv", false⟩, "owner"⟩],
        [], [], []⟩ := by
  rw [C8_default_edge_replace
    ⟨[VId.str "idu", VId.str "idv"], [], [], [], [], []⟩
    (mkE "a" "b" "owner")
    ⟨⟨"u", VId.str "idu", false⟩, ⟨"v", VId.str "idv", false⟩, "owner"⟩
    [] (by decide) (by decide)]
  rfl

/-- C6: the edge differ computes exact set differences of named edge
triples — the unmatched originals are precisely the triples of the first
graph absent from the second — and differencing a graph against itself
leaves nothing unmatched, so the preference construction yields empty
`Added`, empty `Deleted` and an empty match input. -/
theorem C6_set_difference_self_empty (a b : List DiEdge) :
    (∀ t, t ∈ (unmatched_edges a b).map DiEdge.named_edge_triple ↔
      t ∈ a.map DiEdge.named_edge_triple ∧ t ∉ b.map DiEdge.named_edge_triple) ∧
    unmatched_edges a a = [] ∧
    get_pattern_graph_diff a a = ⟨[], [], []⟩ := by
  have hself : unmatched_edges a a = [] := by
    apply List.filter_eq_nil_iff.mpr
    intro e he
    simp [List.mem_map_of_mem DiEdge.named_edge_triple he]
  refine ⟨fun t => ?_, hself, ?_⟩
  · constructor
    · intro ht
      obtain ⟨e, he, rfl⟩ := List.mem_map.mp ht
      have h2 := (List.mem_filter.mp he).2
      simp at h2
      refine ⟨List.mem_map_of_mem _ (List.mem_filter.mp he).1, fun hc => ?_⟩
      obtain ⟨x, hx, hxe⟩ := List.mem_map.mp hc
      exact h2 x hx hxe
    · rintro ⟨ht, hnb⟩
      obtain ⟨e, he, rfl⟩ := List.mem_map.mp ht
      refine List.mem_map_of_mem _ (List.mem_filter.mpr ⟨he, ?_⟩)
      simpa using hnb
  · unfold get_pattern_graph_diff
    rw [hself]
    decide

lemma alookup_map_keys (g : String → List DiEdge) (keys : List String) (k : String)
    (hk : k ∈ keys) : alookup k (keys.map (fun j => (j, g j))) = g k := by
  induction keys with
  | nil => cases hk
  | cons k0 ks ih =>
    by_cases h : k = k0
    · subst h
      simp [alookup]
    · rcases List.mem_cons.mp hk with h0 | h0
      · exact absurd h0 h
      · simp only [List.map_cons, alookup, if_neg h]
        exact ih h0

lemma unmatch_map_keys (edges : List DiEdge) :
    (unmatch_map edges).map Prod.fst = (edges.map DiEdge.edge_attribute).dedup := by
  show List.map Prod.fst (List.map _ _) = _
  rw [List.map_map]
  exact List.map_id _

lemma unmatch_map_lookup (edges : List DiEdge) (k : String)
    (hk : k ∈ edges.map DiEdge.edge_attribute) :
    alookup k (unmatch_map edges) = edges.filter (fun e => e.edge_attribute = k) :=
  alookup_map_keys _ _ _ (List.mem_dedup.mpr hk)

lemma build_pref_prefs_mem (one two : List DiEdge) (k : DiEdge) (cs : List DiEdge)
    (hk : (k, cs) ∈ (build_pref one two).prefs) :
    k ∈ one ∧ (∃ f ∈ two, f.edge_attribute = k.edge_attribute) ∧
      cs = two.filter (fun f => f.edge_attribute = k.edge_attribute) := by
  simp only [build_pref] at hk
  obtain ⟨x, hx, hxe⟩ := List.mem_map.mp hk
  obtain ⟨rfl, rfl⟩ := Prod.mk.inj hxe
  obtain ⟨hx1, hx2⟩ := List.mem_filter.mp hx
  rw [unmatch_map_keys] at hx2
  simp only [List.elem_iff, List.mem_dedup, List.mem_map] at hx2
  obtain ⟨f, hf, hfa⟩ := hx2
  refine ⟨hx1, ⟨f, hf, hfa⟩, ?_⟩
  exact unmatch_map_lookup two x.edge_attribute (List.mem_map.mpr ⟨f, hf, hfa⟩)

/-- C5: a changed-side edge whose type is absent from the original
side's buckets lands in the static `Added` bucket and in no per-edge
candidate list; an original edge whose type is absent from the changed
side's buckets lands in `Deleted` and is never a matching key; every
other original edge is keyed to the entire list of changed unmatched
edges of its type. -/
theorem C5_pref_buckets (one two : List DiEdge) :
    (∀ e ∈ two, (∀ f ∈ one, f.edge_attribute ≠ e.edge_attribute) →
      e ∈ (build_pref one two).added ∧
      ∀ k cs, (k, cs) ∈ (build_pref one two).prefs → e ∉ cs) ∧
    (∀ e ∈ one, (∀ f ∈ two, f.edge_attribute ≠ e.edge_attribute) →
      e ∈ (build_pref one two).deleted ∧
      ∀ k cs, (k, cs) ∈ (build_pref one two).prefs → k ≠ e) ∧
    (∀ e ∈ one, (∃ f ∈ two, f.edge_attribute = e.edge_attribute) →
      (e, two.filter (fun f => f.edge_attribute = e.edge_attribute)) ∈
        (build_pref one two).prefs) := by
  refine ⟨fun e he hyp => ⟨?_, fun k cs hk hecs => ?_⟩,
    fun e he hyp => ⟨?_, fun k cs hk hke => ?_⟩, fun e he hyp => ?_⟩
  · simp only [build_pref]
    apply List.mem_flatMap.mpr
    refine ⟨e.edge_attribute, List.mem_filter.mpr ⟨?_, ?_⟩, ?_⟩
    · rw [unmatch_map_keys]
      exact List.mem_dedup.mpr (List.mem_map_of_mem _ he)
    · rw [unmatch_map_keys]
      simp [List.mem_dedup, List.mem_map]
      intro f hf
      exact hyp f hf
    · rw [unmatch_map_lookup two e.edge_attribute (List.mem_map_of_mem _ he)]
      exact List.mem_filter.mpr ⟨he, by simp⟩
  · obtain ⟨hk1, _, rfl⟩ := build_pref_prefs_mem one two k cs hk
    have hea : e.edge_attribute = k.edge_attribute := by
      simpa using (List.mem_filter.mp hecs).2
    exact hyp k hk1 hea.symm
  · simp only [build_pref]
    apply List.mem_filter.mpr
    refine ⟨he, ?_⟩
    rw [unmatch_map_keys]
    simp [List.mem_dedup, List.mem_map]
    intro f hf
    exact fun hfa => hyp f hf hfa
  · obtain ⟨_, ⟨f, hf, hfa⟩, _⟩ := build_pref_prefs_mem one two k cs hk
    subst hke
    exact hyp f hf hfa
  · have hattr : e.edge_attribute ∈ two.map DiEdge.edge_attribute := by
      obtain ⟨f, hf, hfa⟩ := hyp
      exact List.mem_map.mpr ⟨f, hf, hfa⟩
    have hin : e ∈ one.filter
        (fun x => ((unmatch_map two).map Prod.fst).contains x.edge_attribute) := by
      apply List.mem_filter.mpr
      refine ⟨he, ?_⟩
      rw [unmatch_map_keys]
      simpa [List.elem_iff, List.mem_dedup] using hattr
    simp only [build_pref]
    have h2 : (e, alookup e.edge_attribute (unmatch_map two)) ∈
        List.map (fun x => (x, alookup x.edge_attribute (unmatch_map two)))
          (one.filter
            (fun x => ((unmatch_map two).map Prod.fst).contains x.edge_attribute)) :=
      List.mem_map_of_mem _ hin
    rw [unmatch_map_lookup two e.edge_attribute hattr] at h2
    exact h2

/-- Witness for C5 at concrete edge lists. -/
theorem C5_pref_buckets_witness :
    mkE "b" "c" "orange" ∈
      (build_pref [mkE "s" "t" "owner"]
        [mkE "s" "u" "owner", mkE "b" "c" "orange"]).added ∧
    mkE "x" "y" "blue" ∈
      (build_pref [mkE "s" "t" "owner", mkE "x" "y" "blue"]
        [mkE "s" "u" "owner"]).deleted ∧
    (mkE "s" "t" "owner", [mkE "s" "u" "owner"]) ∈
      (build_pref [mkE "s" "t" "owner"] [mkE "s" "u" "owner"]).prefs :=
  ⟨((C5_pref_buckets [mkE "s" "t" "owner"]
      [mkE "s" "u" "owner", mkE "b" "c" "orange"]).1
      (mkE "b" "c" "orange") (by decide) (by decide)).1,
   ((C5_pref_buckets [mkE "s" "t" "owner", mkE "x" "y" "blue"]
      [mkE "s" "u" "owner"]).2.1
      (mkE "x" "y" "blue") (by decide) (by decide)).1,
   (C5_pref_buckets [mkE "s" "t" "owner"] [mkE "s" "u" "owner"]).2.2
      (mkE "s" "t" "owner") (by decide) (by decide)⟩

lemma match_pass_perm (pending : List (DiEdge × List DiEdge)) (taken : List DiEdge) :
    ((match_pass taken pending).1.map Prod.fst ++
      (match_pass taken pending).2.2.map Prod.fst).Perm (pending.map Prod.fst) := by
  induction pending generalizing taken with
  | nil => simp [match_pass]
  | cons pc rest ih =>
    obtain ⟨p, cands⟩ := pc
    cases hub : unique_best p (cands.filter (fun c => ! taken.contains c)) with
    | some c =>
      simp only [match_pass, hub, List.map_cons, List.cons_append]
      exact (ih (c :: taken)).cons p
    | none =>
      simp only [match_pass, hub, List.map_cons]
      exact List.perm_middle.trans ((ih taken).cons p)

lemma match_loop_perm (fuel : Nat) (taken : List DiEdge)
    (pending : List (DiEdge × List DiEdge)) :
    ((match_loop fuel taken pending).1.map Prod.fst ++
      (match_loop fuel taken pending).2.2.map Prod.fst).Perm (pending.map Prod.fst) := by
  induction fuel generalizing taken pending with
  | zero =>
    rw [match_loop]
    simp
  | succ fuel ih =>
    rw [match_loop]
    by_cases hr : (match_pass taken pending).1.isEmpty
    · simp only [hr, if_pos]
      simp
    · simp only [hr, if_neg, Bool.false_eq_true, not_false_iff]
      have h1 := match_pass_perm pending taken
      have h2 := ih (match_pass taken pending).2.1 (match_pass taken pending).2.2
      have heq :
          (((match_pass taken pending).1 ++
              (match_loop fuel (match_pass taken pending).2.1
                (match_pass taken pending).2.2).1).map Prod.fst ++
            (match_loop fuel (match_pass taken pending).2.1
                (match_pass taken pending).2.2).2.2.map Prod.fst) =
          ((match_pass taken pending).1.map Prod.fst ++
            ((match_loop fuel (match_pass taken pending).2.1
                (match_pass taken pending).2.2).1.map Prod.fst ++
              (match_loop fuel (match_pass taken pending).2.1
                (match_pass taken pending).2.2).2.2.map Prod.fst)) := by
        simp [List.map_append]
      rw [heq]
      exact (h2.append_left _).trans h1

lemma classify_pending_perm (pending : List (DiEdge × List DiEdge)) (taken : List DiEdge) :
    ((classify_pending taken pending).1.map Prod.fst ++
      (classify_pending taken pending).2).Perm (pending.map Prod.fst) := by
  induction pending with
  | nil => simp [classify_pending]
  | cons pc rest ih =>
    obtain ⟨p, cands⟩ := pc
    rw [classify_pending]
    by_cases h : (cands.filter (fun c => ! taken.contains c)).isEmpty
    · simp only [h, if_pos]
      exact List.perm_middle.trans (ih.cons p)
    · simp only [h, Bool.false_eq_true, if_neg, not_false_iff, List.map_cons,
        List.cons_append]
      exact ih.cons p

lemma match_changes_split (pr : PrefResult) :
    ∃ extra, (match_changes pr).deleted = pr.deleted ++ extra ∧
      ((match_changes pr).pairings.map Prod.fst ++
        ((match_changes pr).unstable.map Prod.fst ++ extra)).Perm
        (pr.prefs.map Prod.fst) := by
  refine ⟨(classify_pending (match_loop (pr.prefs.length + 1) [] pr.prefs).2.1
      (match_loop (pr.prefs.length + 1) [] pr.prefs).2.2).2, rfl, ?_⟩
  have h1 := match_loop_perm (pr.prefs.length + 1) [] pr.prefs
  have h2 := classify_pending_perm (match_loop (pr.prefs.length + 1) [] pr.prefs).2.2
    (match_loop (pr.prefs.length + 1) [] pr.prefs).2.1
  exact (h2.append_left _).trans h1

/-- C2: every original unmatched edge ends up in exactly one of the
confident-match keys, the unstable-pair keys or the `Deleted` bucket:
together they are a permutation of the matcher's input edges (the
per-edge keys plus the incoming `Deleted` bucket), and when the input
has no duplicates neither does the output partition. -/
theorem C2_partition_complete (pr : PrefResult) :
    ((match_changes pr).pairings.map Prod.fst ++
      ((match_changes pr).unstable.map Prod.fst ++ (match_changes pr).deleted)).Perm
      (pr.prefs.map Prod.fst ++ pr.deleted) ∧
    ((pr.prefs.map Prod.fst ++ pr.deleted).Nodup →
      ((match_changes pr).pairings.map Prod.fst ++
        ((match_changes pr).unstable.map Prod.fst ++
          (match_changes pr).deleted)).Nodup) := by
  obtain ⟨extra, hdel, hperm⟩ := match_changes_split pr
  have hmain :
      ((match_changes pr).pairings.map Prod.fst ++
        ((match_changes pr).unstable.map Prod.fst ++ (match_changes pr).deleted)).Perm
        (pr.prefs.map Prod.fst ++ pr.deleted) := by
    rw [hdel]
    have hswap :
        ((match_changes pr).unstable.map Prod.fst ++ (pr.deleted ++ extra)).Perm
          ((match_changes pr).unstable.map Prod.fst ++ (extra ++ pr.deleted)) :=
      List.Perm.append_left _ List.perm_append_comm
    refine (hswap.append_left _).trans ?_
    have hassoc :
        ((match_changes pr).pairings.map Prod.fst ++
          ((match_changes pr).unstable.map Prod.fst ++ (extra ++ pr.deleted))) =
          ((match_changes pr).pairings.map Prod.fst ++
            ((match_changes pr).unstable.map Prod.fst ++ extra)) ++ pr.deleted := by
      simp [List.append_assoc]
    rw [hassoc]
    exact hperm.append_right pr.deleted
  exact ⟨hmain, fun hnd => hmain.nodup_iff.mpr hnd⟩

/-- Witness for C2 at the concrete tie scenario input. -/
theorem C2_partition_complete_witness :
    ((match_changes (build_pref tieBase tieAnce)).pairings.map Prod.fst ++
      ((match_changes (build_pref tieBase tieAnce)).unstable.map Prod.fst ++
        (match_changes (build_pref tieBase tieAnce)).deleted)).Perm
      ((build_pref tieBase tieAnce).prefs.map Prod.fst ++
        (build_pref tieBase tieAnce).deleted) ∧
    ((match_changes (build_pref tieBase tieAnce)).pairings.map Prod.fst ++
      ((match_changes (build_pref tieBase tieAnce)).unstable.map Prod.fst ++
        (match_changes (build_pref tieBase tieAnce)).deleted)).Nodup :=
  ⟨(C2_partition_complete (build_pref tieBase tieAnce)).1,
   (C2_partition_complete (build_pref tieBase tieAnce)).2 (by decide)⟩

/-- C3: an original edge reported unstable never also receives a single
confident answer (for duplicate-free input keys), and on the worked
scenario — originals `(s1,t1,type)`, `(s2,t2,type)` against changed
`(as1,t1,type)`, `(s2,at2,type)`, `(s1,at1,type)` — the matcher
confidently pairs `(s2,t2,type)` with `(s2,at2,type)` and flags
`(s1,t1,type)` unstable against both tied candidates. -/
theorem C3_tie_detection (pr : PrefResult) :
    ((pr.prefs.map Prod.fst).Nodup →
      ∀ p, p ∈ (match_changes pr).unstable.map Prod.fst →
        p ∉ (match_changes pr).pairings.map Prod.fst) ∧
    (match_changes (build_pref tieBase tieAnce)).pairings =
      [(mkE "s2" "t2" "type", mkE "s2" "at2" "type")] ∧
    (match_changes (build_pref tieBase tieAnce)).unstable =
      [(mkE "s1" "t1" "type", [mkE "as1" "t1" "type", mkE "s1" "at1" "type"])] := by
  refine ⟨fun hnd p hu hp => ?_, by decide, by decide⟩
  obtain ⟨extra, _, hperm⟩ := match_changes_split pr
  have hout := hperm.nodup_iff.mpr hnd
  obtain ⟨_, _, hdisj⟩ := List.nodup_append.mp hout
  exact hdisj hp (List.mem_append_left _ hu)

/-- Witness for C3: in the tie scenario the unstable edge is not among
the confident-match keys. -/
theorem C3_tie_detection_witness :
    mkE "s1" "t1" "type" ∉
      (match_changes (build_pref tieBase tieAnce)).pairings.map Prod.fst :=
  (C3_tie_detection (build_pref tieBase tieAnce)).1 (by decide)
    (mkE "s1" "t1" "type") (by decide)

lemma remove_duplicates_from_subset (l : List Instr) (seen : List Instr) (x : Instr)
    (hx : x ∈ remove_duplicates_from seen l) : x ∈ l := by
  induction l generalizing seen with
  | nil => cases hx
  | cons y ys ih =>
    rw [remove_duplicates_from] at hx
    by_cases h : seen.contains y
    · rw [if_pos h] at hx
      exact List.mem_cons_of_mem y (ih seen hx)
    · rw [if_neg h] at hx
      rcases List.mem_cons.mp hx with h0 | h0
      · exact h0 ▸ List.mem_cons_self y ys
      · exact List.mem_cons_of_mem y (ih (y :: seen) h0)

lemma remove_duplicates_from_not_seen (l : List Instr) (seen : List Instr) (x : Instr)
    (hx : x ∈ remove_duplicates_from seen l) : x ∉ seen := by
  induction l generalizing seen with
  | nil => cases hx
  | cons y ys ih =>
    rw [remove_duplicates_from] at hx
    by_cases h : seen.contains y
    · rw [if_pos h] at hx
      exact ih seen hx
    · rw [if_neg h] at hx
      rcases List.mem_cons.mp hx with h0 | h0
      · subst h0
        simpa using h
      · intro hmem
        exact ih (y :: seen) h0 (List.mem_cons_of_mem y hmem)

lemma remove_duplicates_from_nodup (l : List Instr) (seen : List Instr) :
    (remove_duplicates_from seen l).Nodup := by
  induction l generalizing seen with
  | nil => exact List.nodup_nil
  | cons y ys ih =>
    rw [remove_duplicates_from]
    by_cases h : seen.contains y
    · rw [if_pos h]
      exact ih seen
    · rw [if_neg h]
      refine List.nodup_cons.mpr ⟨?_, ih (y :: seen)⟩
      intro hy
      exact remove_duplicates_from_not_seen ys (y :: seen) y hy (List.mem_cons_self y seen)

lemma remove_duplicates_subset (l : List Instr) (x : Instr)
    (hx : x ∈ remove_duplicates l) : x ∈ l :=
  remove_duplicates_from_subset l [] x hx

lemma remove_duplicates_nodup (l : List Instr) : (remove_duplicates l).Nodup :=
  remove_duplicates_from_nodup l []

lemma kind_append {l1 l2 : List Instr} {k : Nat} (h1 : ∀ i ∈ l1, i.kind = k)
    (h2 : ∀ i ∈ l2, i.kind = k) : ∀ i ∈ l1 ++ l2, i.kind = k := by
  intro i hi
  rcases List.mem_append.mp hi with h | h
  · exact h1 i h
  · exact h2 i h

lemma kind_singleton {x : Instr} {k : Nat} (h : x.kind = k) :
    ∀ i ∈ [x], i.kind = k := by
  intro i hi
  rw [List.mem_singleton.mp hi]
  exact h

lemma process_added_edge_wf (st : JState) (e : DiEdge) (h : st.wf) :
    (process_added_edge st e).wf := by
  obtain ⟨w1, w2, w3, w4⟩ := h
  unfold process_added_edge create_node_to_uml
  dsimp only
  split_ifs <;>
    first
      | exact ⟨w1, w2, w3, w4⟩
      | exact ⟨kind_append w1 (kind_singleton rfl), kind_append w2 (kind_singleton rfl),
          w3, w4⟩
      | exact ⟨kind_append (kind_append w1 (kind_singleton rfl)) (kind_singleton rfl),
          kind_append (kind_append w2 (kind_singleton rfl)) (kind_singleton rfl), w3, w4⟩

lemma process_orig_entry_wf (st : JState) (v0 : DiEdge) (h : st.wf) :
    (process_orig_entry st v0).wf := by
  have hrenfold : ∀ (l : List Vertex) (s : JState), s.wf →
      (l.foldl (fun s n =>
        { s with seen_ids := n.vid :: s.seen_ids,
                 node_renames := s.node_renames ++ [change_node_to_uml n] }) s).wf := by
    intro l
    induction l with
    | nil => intro s hs; exact hs
    | cons n ns ih =>
      intro s hs
      obtain ⟨u1, u2, u3, u4⟩ := hs
      exact ih _ ⟨u1, u2, kind_append u3 (kind_singleton rfl), u4⟩
  have hnewfold : ∀ (l : List Vertex) (s : JState), s.wf →
      (l.foldl (fun s n =>
        let r := create_node_to_uml n
        { s with seen_ids := n.vid :: s.seen_ids,
                 create_node := s.create_node ++ r.1,
                 node_dec := s.node_dec ++ r.2.1,
                 edge_add := s.edge_add ++ r.2.2 }) s).wf := by
    intro l
    induction l with
    | nil => intro s hs; exact hs
    | cons n ns ih =>
      intro s hs
      obtain ⟨u1, u2, u3, u4⟩ := hs
      exact ih _ ⟨kind_append u1 (kind_singleton rfl),
        kind_append u2 (kind_singleton rfl), u3, u4⟩
  have hwf_add : ∀ (s : JState), s.wf →
      ({ s with edge_add := s.edge_add ++ [edge_to_uml "replace" v0] } : JState).wf := by
    intro s hs
    obtain ⟨u1, u2, u3, u4⟩ := hs
    exact ⟨u1, u2, u3, u4⟩
  unfold process_orig_entry
  dsimp only
  split_ifs <;>
    first
      | exact h
      | exact hwf_add _ h
      | exact hwf_add _ (hrenfold _ _ h)
      | exact hwf_add _ (hnewfold _ _ h)
      | exact hwf_add _ (hnewfold _ _ (hwf_add _ (hrenfold _ _ h)))

lemma process_entry_wf (st : JState) (ent : CKey × List DiEdge) (h : st.wf) :
    (process_entry st ent).wf := by
  obtain ⟨key, value⟩ := ent
  cases key with
  | added =>
    show (value.foldl process_added_edge st).wf
    induction value generalizing st with
    | nil => exact h
    | cons e es ih => exact ih _ (process_added_edge_wf st e h)
  | deleted =>
    show (value.foldl
      (fun s e => { s with edge_del := s.edge_del ++ [edge_to_uml "delete" e] }) st).wf
    induction value generalizing st with
    | nil => exact h
    | cons e es ih =>
      obtain ⟨u1, u2, u3, u4⟩ := h
      exact ih _ ⟨u1, u2, u3, kind_append u4 (kind_singleton rfl)⟩
  | orig k =>
    cases value with
    | nil => exact h
    | cons v0 rest => exact process_orig_entry_wf st v0 h

lemma fold_entries_wf (l : List (CKey × List DiEdge)) (s : JState) (hs : s.wf) :
    (l.foldl process_entry s).wf := by
  induction l generalizing s with
  | nil => exact hs
  | cons e es ih => exact ih _ (process_entry_wf s e hs)

lemma kind_disjoint {l1 l2 : List Instr} {k1 k2 : Nat}
    (h1 : ∀ i ∈ l1, i.kind = k1) (h2 : ∀ i ∈ l2, i.kind = k2) (hne : k1 ≠ k2) :
    l1.Disjoint l2 :=
  fun a ha hb => absurd ((h1 a ha).symm.trans (h2 a hb)) hne

/-- C9: the final instruction list never repeats an instruction —
identical instructions generated several times are collapsed to one —
and in particular two `Added` edges sharing a new endpoint produce
exactly one node-create instruction for it. -/
theorem C9_deduplication (uml_id : List (String × VId))
    (change_dict : List (CKey × List DiEdge)) :
    (graph_difference_to_json uml_id change_dict).Nodup ∧
    (graph_difference_to_json []
      [(CKey.added,
        [⟨⟨"n", VId.uuid 7, false⟩, ⟨"t1", VId.uuid 8, false⟩, "owner"⟩,
         ⟨⟨"n", VId.uuid 7, false⟩, ⟨"t2", VId.uuid 9, false⟩, "owner"⟩])]).count
      (Instr.createNode "n" (VId.uuid 7)) = 1 := by
  refine ⟨?_, by decide⟩
  have hwf : (change_dict.foldl process_entry
      ⟨(uml_id.map Prod.snd).filter VId.isStr, [], [], [], [], []⟩).wf :=
    fold_entries_wf _ _
      ⟨fun i hi => absurd hi (List.not_mem_nil i), fun i hi => absurd hi (List.not_mem_nil i),
       fun i hi => absurd hi (List.not_mem_nil i), fun i hi => absurd hi (List.not_mem_nil i)⟩
  obtain ⟨w1, w2, w3, w4⟩ := hwf
  unfold graph_difference_to_json
  dsimp only
  have hA : ∀ i ∈ remove_duplicates (change_dict.foldl process_entry
      ⟨(uml_id.map Prod.snd).filter VId.isStr, [], [], [], [], []⟩).create_node,
      i.kind = 0 := fun i hi => w1 i (remove_duplicates_subset _ _ hi)
  have hD : ∀ i ∈ remove_duplicates (change_dict.foldl process_entry
      ⟨(uml_id.map Prod.snd).filter VId.isStr, [], [], [], [], []⟩).node_dec,
      i.kind = 1 := fun i hi => w2 i (remove_duplicates_subset _ _ hi)
  have hR : ∀ i ∈ remove_duplicates (change_dict.foldl process_entry
      ⟨(uml_id.map Prod.snd).filter VId.isStr, [], [], [], [], []⟩).node_renames,
      i.kind = 2 := fun i hi => w3 i (remove_duplicates_subset _ _ hi)
  have hDel : ∀ i ∈ remove_duplicates (change_dict.foldl process_entry
      ⟨(uml_id.map Prod.snd).filter VId.isStr, [], [], [], [], []⟩).edge_del,
      i.kind = 3 := fun i hi => w4 i (remove_duplicates_subset _ _ hi)
  have htail : (remove_duplicates (change_dict.foldl process_entry
      ⟨(uml_id.map Prod.snd).filter VId.isStr, [], [], [], [], []⟩).edge_del ++
      remove_duplicates (change_dict.foldl process_entry
      ⟨(uml_id.map Prod.snd).filter VId.isStr, [], [], [], [], []⟩).node_renames).Nodup :=
    List.nodup_append.mpr ⟨remove_duplicates_nodup _, remove_duplicates_nodup _,
      kind_disjoint hDel hR (by omega)⟩
  by_cases hc : (change_dict.foldl process_entry
      ⟨(uml_id.map Prod.snd).filter VId.isStr, [], [], [], [], []⟩).create_node.isEmpty
  · rw [if_pos hc]
    simpa using htail
  · rw [if_neg hc]
    have hhead : (remove_duplicates (change_dict.foldl process_entry
        ⟨(uml_id.map Prod.snd).filter VId.isStr, [], [], [], [], []⟩).create_node ++
        remove_duplicates (change_dict.foldl process_entry
        ⟨(uml_id.map Prod.snd).filter VId.isStr, [], [], [], [], []⟩).node_dec).Nodup :=
      List.nodup_append.mpr ⟨remove_duplicates_nodup _, remove_duplicates_nodup _,
        kind_disjoint hA hD (by omega)⟩
    rw [List.append_assoc]
    refine List.nodup_append.mpr ⟨hhead, htail, ?_⟩
    intro a ha hb
    have hk1 : a.kind = 0 ∨ a.kind = 1 := by
      rcases List.mem_append.mp ha with h | h
      · exact Or.inl (hA a h)
      · exact Or.inr (hD a h)
    have hk2 : a.kind = 3 ∨ a.kind = 2 := by
      rcases List.mem_append.mp hb with h | h
      · exact Or.inl (hDel a h)
      · exact Or.inr (hR a h)
    omega

/-- C1: evaluating `graph_difference_to_json` on a run holding a single
`Added` edge between already-seen endpoints shows the final list
omitting the accumulated edge-replace instruction: the `edge_add`
accumulator holds the instruction, yet the returned `change_list` is
empty because the extend of the edge instructions (line 446 of
graph_creation.py) is commented out, contradicting the method's own
docstring, which ends the ordering with the added edges. -/
theorem C1_edge_instructions_dropped :
    (([(CKey.added,
        [⟨⟨"b", VId.str "idb", false⟩, ⟨"c", VId.str "idc", false⟩, "orange"⟩])]).foldl
        process_entry ⟨[VId.str "idb", VId.str "idc"], [], [], [], [], []⟩).edge_add =
      [Instr.edgeOp "replace" ("b", "c", "orange")] ∧
    graph_difference_to_json [("b", VId.str "idb"), ("c", VId.str "idc")]
      [(CKey.added,
        [⟨⟨"b", VId.str "idb", false⟩, ⟨"c", VId.str "idc", false⟩, "orange"⟩])] = [] :=
  ⟨by decide, by decide⟩
